import Mathlib

/-!
Shallow embedding of `zmqc.py` (a command-line interface to ZeroMQ sockets)
and proofs about its delimiter framing, option translation, argument
validation and loop/termination behaviour.

Streams and byte strings are modelled as `List α` (Python 2 `str` values are
byte strings; reading one character at a time corresponds to consuming the
head of the list).
-/

set_option autoImplicit false

namespace Zmqc

variable {α : Type} [DecidableEq α]

/-- The body of the `while` loop in `read_until_delimiter`: repeatedly read a
character `c`; while `c` is non-empty (not end-of-stream) and differs from the
delimiter, append it to `output`.  Returns the collected output, whether the
loop stopped on the delimiter (`c` truthy) or on end-of-stream (`c` falsy),
and the remaining stream contents. -/
def ruLoop (delimiter : α) : List α → List α × Bool × List α
  | [] => ([], false, [])
  | c :: rest =>
    if c = delimiter then ([], true, rest)
    else
      let r := ruLoop delimiter rest
      (c :: r.1, r.2.1, r.2.2)

/-- `read_until_delimiter(stream, delimiter)`: read from a stream until the
delimiter or end-of-stream.  `none` models the `EOFError` raised by
`if not (c or output)`, i.e. when the final read `c` hit end-of-stream and
nothing was collected.  Otherwise returns the collected bytes (delimiter
excluded and consumed) together with the rest of the stream. -/
def read_until_delimiter (stream : List α) (delimiter : α) :
    Option (List α × List α) :=
  let r := ruLoop delimiter stream
  if r.2.1 = false ∧ r.1 = [] then none
  else some (r.1, r.2.2)

/-- `write(sock, delimiter, input)`: one invocation of the write primitive.
It calls `read_until_delimiter` and sends the resulting message with a single
`sock.send`; an `EOFError` becomes `StopIteration` (modelled as `none`).
Returns the list of messages sent (always exactly one) and the rest of the
input stream. -/
def write (delimiter : α) (input : List α) :
    Option (List (List α) × List α) :=
  match read_until_delimiter input delimiter with
  | none => none
  | some (message, rest) => some ([message], rest)

/-- The bytes that one invocation of `read(sock, delimiter, output)` writes to
the output stream for a received message: `output.write(message + delimiter)`. -/
def read (delimiter : α) (message : List α) : List α :=
  message ++ [delimiter]

/-- The output-stream contents produced by rendering a list of received
messages with the `read` primitive, one call per message. -/
def renderMessages (delimiter : α) (msgs : List (List α)) : List α :=
  (msgs.map (read delimiter)).flatten

theorem ruLoop_no_delim_append {delimiter : α} :
    ∀ (m rest : List α), delimiter ∉ m →
      ruLoop delimiter (m ++ delimiter :: rest) = (m, true, rest) := by
  intro m
  induction m with
  | nil => intro rest _; simp [ruLoop]
  | cons c m ih =>
    intro rest hnot
    have hc : c ≠ delimiter := fun h => hnot (by simp [h])
    have hm : delimiter ∉ m := fun h => hnot (List.mem_cons_of_mem _ h)
    simp [ruLoop, hc, ih rest hm]

theorem ruLoop_no_delim_all {delimiter : α} :
    ∀ (s : List α), delimiter ∉ s → ruLoop delimiter s = (s, false, []) := by
  intro s
  induction s with
  | nil => intro _; simp [ruLoop]
  | cons c s ih =>
    intro hnot
    have hc : c ≠ delimiter := fun h => hnot (by simp [h])
    have hs : delimiter ∉ s := fun h => hnot (List.mem_cons_of_mem _ h)
    simp [ruLoop, hc, ih hs]

theorem ruLoop_out_not_delim {delimiter : α} :
    ∀ (s : List α), delimiter ∉ (ruLoop delimiter s).1 := by
  intro s
  induction s with
  | nil => simp [ruLoop]
  | cons c s ih =>
    by_cases hc : c = delimiter
    · simp [ruLoop, hc]
    · simp [ruLoop, hc]
      exact ⟨fun h => hc h.symm, ih⟩

theorem ruLoop_rest_shorter {delimiter : α} :
    ∀ (s : List α), s ≠ [] →
      (ruLoop delimiter s).2.2.length < s.length := by
  intro s
  induction s with
  | nil => intro h; exact absurd rfl h
  | cons c s ih =>
    intro _
    by_cases hc : c = delimiter
    · simp [ruLoop, hc]
    · simp only [ruLoop, if_neg hc, List.length_cons]
      rcases s with _ | ⟨d, s⟩
      · simp [ruLoop]
      · exact Nat.lt_trans (ih (by simp)) (Nat.lt_succ_self _)

theorem read_until_delimiter_eq_none_iff {delimiter : α} (stream : List α) :
    read_until_delimiter stream delimiter = none ↔ stream = [] := by
  constructor
  · intro h
    rcases stream with _ | ⟨c, rest⟩
    · rfl
    · exfalso
      by_cases hc : c = delimiter
      · simp [read_until_delimiter, ruLoop, hc] at h
      · simp [read_until_delimiter, ruLoop, hc] at h
  · intro h; subst h; simp [read_until_delimiter, ruLoop]

theorem read_until_delimiter_some_eq {delimiter : α}
    {stream message rest : List α}
    (h : read_until_delimiter stream delimiter = some (message, rest)) :
    message = (ruLoop delimiter stream).1 ∧
      rest = (ruLoop delimiter stream).2.2 := by
  unfold read_until_delimiter at h
  by_cases hcond : (ruLoop delimiter stream).2.1 = false ∧
      (ruLoop delimiter stream).1 = []
  · simp [hcond] at h
  · simp [hcond] at h
    exact ⟨h.1.symm, h.2.symm⟩

theorem read_until_delimiter_rest_shorter {delimiter : α}
    {stream message rest : List α}
    (h : read_until_delimiter stream delimiter = some (message, rest)) :
    rest.length < stream.length := by
  have hne : stream ≠ [] := by
    intro hnil
    rw [(read_until_delimiter_eq_none_iff stream).2 hnil] at h
    exact Option.noConfusion h
  rw [(read_until_delimiter_some_eq h).2]
  exact ruLoop_rest_shorter stream hne

/-- Re-parsing an output byte stream with the write primitive's framing:
repeatedly call `read_until_delimiter`, collecting the messages, until it
raises the end sentinel. -/
def parseStream (delimiter : α) (input : List α) : List (List α) :=
  match h : read_until_delimiter input delimiter with
  | none => []
  | some (message, rest) => message :: parseStream delimiter rest
termination_by input.length
decreasing_by exact read_until_delimiter_rest_shorter h

theorem parseStream_eq (delimiter : α) (input : List α) :
    parseStream delimiter input =
      match read_until_delimiter input delimiter with
      | none => []
      | some (message, rest) => message :: parseStream delimiter rest := by
  rw [parseStream]
  split <;> rename_i heq <;> rw [heq]

theorem parseStream_nil (delimiter : α) :
    parseStream delimiter ([] : List α) = [] := by
  rw [parseStream_eq]
  have h : read_until_delimiter ([] : List α) delimiter = none :=
    (read_until_delimiter_eq_none_iff []).2 rfl
  rw [h]

theorem parseStream_cons {delimiter : α} (m rest : List α)
    (hm : delimiter ∉ m) :
    parseStream delimiter (m ++ delimiter :: rest) =
      m :: parseStream delimiter rest := by
  have h : read_until_delimiter (m ++ delimiter :: rest) delimiter =
      some (m, rest) := by
    unfold read_until_delimiter
    rw [ruLoop_no_delim_append m rest hm]
    simp
  rw [parseStream_eq, h]

theorem ruLoop_saw_decomp {delimiter : α} :
    ∀ (m : List α), (ruLoop delimiter m).2.1 = true →
      m = (ruLoop delimiter m).1 ++ delimiter :: (ruLoop delimiter m).2.2 := by
  intro m
  induction m with
  | nil => intro h; simp [ruLoop] at h
  | cons c rest ih =>
    intro h
    by_cases hc : c = delimiter
    · simp [ruLoop, hc]
    · simp only [ruLoop, if_neg hc] at h ⊢
      exact congrArg (c :: ·) (ih h)

theorem ruLoop_saw_of_mem {delimiter : α} :
    ∀ (m : List α), delimiter ∈ m → (ruLoop delimiter m).2.1 = true := by
  intro m
  induction m with
  | nil => intro h; simp at h
  | cons c rest ih =>
    intro h
    by_cases hc : c = delimiter
    · simp [ruLoop, hc]
    · simp only [ruLoop, if_neg hc]
      rcases List.mem_cons.1 h with h1 | h2
      · exact absurd h1.symm hc
      · exact ih h2

theorem parseStream_not_delim {delimiter : α} (input : List α) :
    ∀ x ∈ parseStream delimiter input, delimiter ∉ x := by
  suffices H : ∀ (n : Nat) (input : List α), input.length ≤ n →
      ∀ x ∈ parseStream delimiter input, delimiter ∉ x from
    H input.length input le_rfl
  intro n
  induction n with
  | zero =>
    intro input hlen x hx
    have : input = [] := List.length_eq_zero.1 (Nat.le_zero.1 hlen)
    subst this
    rw [parseStream_nil] at hx
    simp at hx
  | succ n ih =>
    intro input hlen x hx
    rcases hr : read_until_delimiter input delimiter with _ | ⟨m, rest⟩
    · rw [parseStream_eq, hr] at hx
      simp at hx
    · rw [parseStream_eq, hr] at hx
      rcases List.mem_cons.1 hx with h1 | h2
      · subst h1
        rw [(read_until_delimiter_some_eq hr).1]
        exact ruLoop_out_not_delim input
      · have hshort : rest.length < input.length :=
          read_until_delimiter_rest_shorter hr
        exact ih rest (Nat.le_of_lt_succ (Nat.lt_of_lt_of_le hshort hlen))
          x h2

theorem parseStream_length_append {delimiter : α} :
    ∀ (m rest : List α),
      (parseStream delimiter (m ++ delimiter :: rest)).length =
        m.count delimiter + 1 + (parseStream delimiter rest).length := by
  suffices H : ∀ (n : Nat) (m rest : List α), m.length ≤ n →
      (parseStream delimiter (m ++ delimiter :: rest)).length =
        m.count delimiter + 1 + (parseStream delimiter rest).length from
    fun m rest => H m.length m rest le_rfl
  intro n
  induction n with
  | zero =>
    intro m rest hlen
    have hm : m = [] := List.length_eq_zero.1 (Nat.le_zero.1 hlen)
    subst hm
    have h0 := @parseStream_cons α _ delimiter [] rest (by simp)
    rw [List.nil_append] at h0
    rw [List.nil_append, h0]
    simp
    omega
  | succ n ih =>
    intro m rest hlen
    by_cases hd : delimiter ∈ m
    · have hsaw := ruLoop_saw_of_mem m hd
      have hdec := ruLoop_saw_decomp m hsaw
      set m1 := (ruLoop delimiter m).1 with hm1
      set m2 := (ruLoop delimiter m).2.2 with hm2
      have hm1nd : delimiter ∉ m1 := ruLoop_out_not_delim m
      have hm2len : m2.length < m.length := ruLoop_rest_shorter m
        (by intro hnil; rw [hnil] at hd; simp at hd)
      have hsplit : m ++ delimiter :: rest =
          m1 ++ delimiter :: (m2 ++ delimiter :: rest) := by
        rw [hdec]; simp
      rw [hsplit, parseStream_cons m1 _ hm1nd]
      have hrec := ih m2 rest (Nat.le_of_lt_succ
        (Nat.lt_of_lt_of_le hm2len hlen))
      have hcount : m.count delimiter = m2.count delimiter + 1 := by
        rw [hdec, List.count_append, List.count_cons]
        simp [List.count_eq_zero.2 hm1nd]
      simp only [List.length_cons, hrec, hcount]
      omega
    · rw [parseStream_cons m rest hd]
      simp [List.count_eq_zero.2 hd]
      omega

omit [DecidableEq α] in
theorem renderMessages_cons (delimiter : α) (m : List α)
    (ms : List (List α)) :
    renderMessages delimiter (m :: ms) =
      m ++ delimiter :: renderMessages delimiter ms := by
  simp [renderMessages, read]

theorem parseStream_render_length (delimiter : α) :
    ∀ msgs : List (List α),
      (parseStream delimiter (renderMessages delimiter msgs)).length =
        msgs.length + (msgs.map (fun m => m.count delimiter)).sum := by
  intro msgs
  induction msgs with
  | nil => simp [renderMessages, parseStream_nil]
  | cons m ms ih =>
    rw [renderMessages_cons, parseStream_length_append m _]
    simp only [List.length_cons, List.map_cons, List.sum_cons, ih]
    omega

theorem parseStream_render_exact (delimiter : α) :
    ∀ msgs : List (List α), (∀ x ∈ msgs, delimiter ∉ x) →
      parseStream delimiter (renderMessages delimiter msgs) = msgs := by
  intro msgs
  induction msgs with
  | nil => intro _; simp [renderMessages, parseStream_nil]
  | cons m ms ih =>
    intro h
    rw [renderMessages_cons, parseStream_cons m _ (h m (by simp))]
    rw [ih (fun x hx => h x (List.mem_cons_of_mem _ hx))]

/-- C1: the write-one primitive (`read_until_delimiter` composed with `write`)
reads bytes up to but not including the first delimiter (or to end-of-stream);
it raises the end sentinel (`none`, modelling `EOFError`/`StopIteration`) if
and only if zero bytes were read with the stream at end (the stream is empty);
otherwise the collected bytes — including a trailing chunk not followed by a
delimiter — are sent as exactly one socket message. -/
theorem write_reads_one_frame (delimiter : α) :
    (∀ input : List α, write delimiter input = none ↔ input = []) ∧
    (∀ message rest : List α, delimiter ∉ message →
      write delimiter (message ++ delimiter :: rest) = some ([message], rest)) ∧
    (∀ input : List α, delimiter ∉ input → input ≠ [] →
      write delimiter input = some ([input], [])) := by
  refine ⟨?_, ?_, ?_⟩
  · intro input
    constructor
    · intro h
      by_contra hne
      rcases hr : read_until_delimiter input delimiter with _ | ⟨m, r⟩
      · exact hne ((read_until_delimiter_eq_none_iff input).1 hr)
      · rw [write, hr] at h
        exact Option.noConfusion h
    · intro h
      subst h
      rw [write, (read_until_delimiter_eq_none_iff []).2 rfl]
  · intro message rest hm
    have h : read_until_delimiter (message ++ delimiter :: rest) delimiter =
        some (message, rest) := by
      unfold read_until_delimiter
      rw [ruLoop_no_delim_append message rest hm]
      simp
    rw [write, h]
  · intro input hni hne
    have h : read_until_delimiter input delimiter = some (input, []) := by
      unfold read_until_delimiter
      rw [ruLoop_no_delim_all input hni]
      simp [hne]
    rw [write, h]

/-- Witness for C1 at a concrete input: delimiter `X`, stream `abXde`. -/
theorem write_reads_one_frame_witness :
    write 'X' (['a', 'b'] ++ 'X' :: ['d', 'e']) =
      some ([['a', 'b']], ['d', 'e']) :=
  (write_reads_one_frame 'X').2.1 ['a', 'b'] ['d', 'e'] (by decide)

/-- C9: rendering a list of messages with the read-one primitive (each message
verbatim followed by one delimiter byte, no escaping) and re-parsing the
stream with write-one's framing recovers the original list if and only if no
message contains the delimiter byte; a message containing the delimiter
re-parses into two or more records, none of which equals the original. -/
theorem read_write_roundtrip (delimiter : α) (msgs : List (List α))
    (m : List α) :
    (parseStream delimiter (renderMessages delimiter msgs) = msgs ↔
      ∀ x ∈ msgs, delimiter ∉ x) ∧
    (delimiter ∈ m →
      2 ≤ (parseStream delimiter (renderMessages delimiter [m])).length ∧
      ∀ r ∈ parseStream delimiter (renderMessages delimiter [m]), r ≠ m) := by
  constructor
  · constructor
    · intro h
      by_contra hbad
      push_neg at hbad
      rcases hbad with ⟨x, hx, hdx⟩
      have hsum : 1 ≤ (msgs.map (fun y => y.count delimiter)).sum := by
        have hmem : x.count delimiter ∈
            msgs.map (fun y => y.count delimiter) :=
          List.mem_map_of_mem _ hx
        have hpos : 1 ≤ x.count delimiter := List.count_pos_iff.2 hdx
        calc 1 ≤ x.count delimiter := hpos
          _ ≤ (msgs.map (fun y => y.count delimiter)).sum :=
            List.single_le_sum (fun _ _ => Nat.zero_le _) _ hmem
      have hlen := parseStream_render_length delimiter msgs
      rw [h] at hlen
      omega
    · exact parseStream_render_exact delimiter msgs
  · intro hd
    have hlen := parseStream_render_length delimiter [m]
    have hpos : 1 ≤ m.count delimiter := List.count_pos_iff.2 hd
    constructor
    · simp only [List.map_cons, List.map_nil, List.sum_cons, List.sum_nil,
        List.length_cons, List.length_nil] at hlen
      omega
    · intro r hr hrm
      have hnd : delimiter ∉ r := parseStream_not_delim _ r hr
      rw [hrm] at hnd
      exact hnd hd

/-- Witness for C9 at a concrete input: the message `a\nb` containing the
newline delimiter re-parses into two records, neither equal to it. -/
theorem read_write_roundtrip_witness :
    2 ≤ (parseStream '\n' (renderMessages '\n' [['a', '\n', 'b']])).length ∧
    ∀ r ∈ parseStream '\n' (renderMessages '\n' [['a', '\n', 'b']]),
      r ≠ ['a', '\n', 'b'] :=
  (read_write_roundtrip '\n' [] ['a', '\n', 'b']).2 (by decide)

/-! ## The option translator (`get_sockopts`)

Option strings are byte strings, modelled as `List Char`; character classes
are expressed through code points (`Char.toNat`), matching the byte-oriented
Python 2 semantics. -/

/-- A character matched by the `[A-Z_]` class of the option-spec regex. -/
def isNameChar (c : Char) : Bool :=
  (65 ≤ c.toNat && c.toNat ≤ 90) || c.toNat = 95

/-- The semantics of `(.*)$` in `re.match` (no `re.MULTILINE`, no
`re.DOTALL`): `.` never matches a newline and `$` matches at the end of the
string or just before a single trailing newline, which is then excluded from
the group.  Returns the matched group for the given remainder of the input. -/
def matchValue (r : List Char) : Option (List Char) :=
  if r.contains '\n' = false then some r
  else if r.getLast? = some '\n' ∧ r.dropLast.contains '\n' = false then
    some r.dropLast
  else none

/-- `re.match(r'^([A-Z_]+)\=(.*)$', option)`: group 1 is the (maximal,
non-empty) `[A-Z_]` run at the start, which must be followed by `=`; group 2
is the remainder as matched by `(.*)$`.  `none` models a failed match. -/
def matchOptionSpec (s : List Char) : Option (List Char × List Char) :=
  let name := s.takeWhile isNameChar
  match name, s.drop name.length with
  | [], _ => none
  | _ :: _, [] => none
  | _ :: _, c :: restv =>
    if c = '=' then (matchValue restv).map (fun v => (name, v))
    else none

/-- The option-name → numeric-code table of the external messaging library
(`zmq.core.constants` of pyzmq 2.x), as resolved by
`getattr(zmq.core.constants, opt_name.upper())`.  The codes for `SUBSCRIBE`
(6) and `LINGER` (17) are pinned by the doctests of `get_sockopts`. -/
def zmq_constants : List (List Char × Int) :=
  [("HWM".toList, 1), ("SWAP".toList, 3), ("AFFINITY".toList, 4),
   ("IDENTITY".toList, 5), ("SUBSCRIBE".toList, 6), ("UNSUBSCRIBE".toList, 7),
   ("RATE".toList, 8), ("RECOVERY_IVL".toList, 9), ("MCAST_LOOP".toList, 10),
   ("SNDBUF".toList, 11), ("RCVBUF".toList, 12), ("RCVMORE".toList, 13),
   ("FD".toList, 14), ("EVENTS".toList, 15), ("TYPE".toList, 16),
   ("LINGER".toList, 17), ("RECONNECT_IVL".toList, 18),
   ("BACKLOG".toList, 19)]

/-- `zmq.core.constants.int64_sockopts`. -/
def int64_sockopts : List Int := [1, 3, 4, 8, 9, 10, 11, 12, 13]

/-- `zmq.core.constants.int_sockopts`. -/
def int_sockopts : List Int := [14, 15, 16, 17, 18, 19]

/-- `zmq.core.constants.bytes_sockopts`. -/
def bytes_sockopts : List Int := [5, 6, 7]

/-- `zmq.SUBSCRIBE`. -/
def SUBSCRIBE : Int := 6

/-- The whitespace characters stripped by Python's `int()` before parsing. -/
def pyWhitespace (c : Char) : Bool :=
  c.toNat = 32 || c.toNat = 9 || c.toNat = 10 ||
    c.toNat = 13 || c.toNat = 11 || c.toNat = 12

/-- A decimal digit character. -/
def isDigitChar (c : Char) : Bool := 48 ≤ c.toNat && c.toNat ≤ 57

/-- Numeric value of a decimal digit character. -/
def digitVal (c : Char) : Nat := c.toNat - 48

/-- Parse a non-empty all-digit string as a natural number. -/
def parseDigits (ds : List Char) : Option Nat :=
  if ds = [] then none
  else if ds.all isDigitChar then
    some (ds.foldl (fun a c => a * 10 + digitVal c) 0)
  else none

/-- Strip leading and trailing Python whitespace, as `int()` does. -/
def pystrip (s : List Char) : List Char :=
  ((s.dropWhile pyWhitespace).reverse.dropWhile pyWhitespace).reverse

/-- The sign-and-digits part of Python's `int()`: an optional single sign
followed by one or more decimal digits. -/
def pyintCore : List Char → Option Int
  | [] => none
  | c :: ds =>
    if c = '-' then (parseDigits ds).map (fun n => -(Int.ofNat n))
    else if c = '+' then (parseDigits ds).map Int.ofNat
    else (parseDigits (c :: ds)).map Int.ofNat

/-- Python 2's `int(value)` on a byte string: optional surrounding
whitespace, an optional single sign, then one or more decimal digits;
anything else raises `ValueError` (modelled as `none`). -/
def pyint (s : List Char) : Option Int :=
  pyintCore (pystrip s)

instance {ε σ : Type} [DecidableEq ε] [DecidableEq σ] :
    DecidableEq (Except ε σ) := fun x y =>
  match x, y with
  | .error a, .error b =>
    if h : a = b then .isTrue (by rw [h])
    else .isFalse (by intro hc; injection hc; exact h ‹_›)
  | .error _, .ok _ => .isFalse (by intro h; exact Except.noConfusion h)
  | .ok _, .error _ => .isFalse (by intro h; exact Except.noConfusion h)
  | .ok a, .ok b =>
    if h : a = b then .isTrue (by rw [h])
    else .isFalse (by intro hc; injection hc; exact h ‹_›)

/-- A socket-option value after coercion: an integer for codes in the
int/int64 classification sets, otherwise the raw byte string. -/
inductive OptValue
  | int (n : Int)
  | str (s : List Char)
deriving DecidableEq

/-- The `ParserError` exceptions raised by `get_sockopts`, with the data
interpolated into their messages.  `invalidOptionSpec` carries nothing: the
code formats the failed match object (`None`), not the input. -/
inductive ParserError
  | invalidOptionSpec
  | unrecognisedOption (matchName : List Char)
  | invalidValue (optName : List Char) (value : List Char)
deriving DecidableEq

/-- Python `repr` of a plain byte string (no embedded quotes or escapes). -/
def pyRepr (s : List Char) : List Char :=
  Char.ofNat 39 :: (s ++ [Char.ofNat 39])

/-- The message string of each `ParserError`, following the `%`-format
strings in the source (`%r` of the failed match object `None` renders as
`None`). -/
def ParserError.message : ParserError → List Char
  | .invalidOptionSpec => "Invalid option spec: None".toList
  | .unrecognisedOption matchName =>
      "Unrecognised socket option: ".toList ++ pyRepr matchName
  | .invalidValue optName value =>
      "Invalid value for option ".toList ++ optName ++ ": ".toList ++
        pyRepr value

/-- `if opt_name.startswith('ZMQ_'): opt_name = opt_name[4:]`. -/
def strip_zmq (optName : List Char) : List Char :=
  if ['Z', 'M', 'Q', '_'].isPrefixOf optName then optName.drop 4
  else optName

/-- The part of the `get_sockopts` loop body after a successful regex match:
strip an optional `ZMQ_` prefix, resolve the name in the constants table
(failing with `unrecognisedOption` on the unstripped group 1), and coerce the
value according to the classification sets (int conversion may fail with
`invalidValue`; `str` conversion is the identity). -/
def translateNamed (matchName matchVal : List Char) :
    Except ParserError (Int × OptValue) :=
  let optName := strip_zmq matchName
  match zmq_constants.lookup (optName.map Char.toUpper) with
  | none => .error (.unrecognisedOption matchName)
  | some optCode =>
    if (int_sockopts ++ int64_sockopts).contains optCode then
      match pyint matchVal with
      | none => .error (.invalidValue optName matchVal)
      | some n => .ok (optCode, .int n)
    else if bytes_sockopts.contains optCode then .ok (optCode, .str matchVal)
    else .ok (optCode, .str matchVal)

/-- One iteration of the `for option in sock_opts` loop of `get_sockopts`. -/
def translateOption (option : List Char) :
    Except ParserError (Int × OptValue) :=
  match matchOptionSpec option with
  | none => .error .invalidOptionSpec
  | some (matchName, matchVal) => translateNamed matchName matchVal

/-- `get_sockopts(sock_opts)`: translate each `OPT=VALUE` string in order,
raising the first `ParserError` encountered. -/
def get_sockopts (sock_opts : List (List Char)) :
    Except ParserError (List (Int × OptValue)) :=
  match sock_opts with
  | [] => .ok []
  | o :: rest =>
    match translateOption o with
    | .error e => .error e
    | .ok p =>
      match get_sockopts rest with
      | .error e => .error e
      | .ok ps => .ok (p :: ps)

/-- The decimal rendering of an integer (used to state the round-trip
property of integer-typed option values). -/
def decimalNat (n : Nat) : List Char :=
  if h : n < 10 then [Char.ofNat (48 + n)]
  else decimalNat (n / 10) ++ [Char.ofNat (48 + n % 10)]
termination_by n
decreasing_by exact Nat.div_lt_self (by omega) (by omega)

/-- The decimal rendering of an integer, with a sign for negatives. -/
def decimalInt (n : Int) : List Char :=
  if n < 0 then '-' :: decimalNat n.natAbs else decimalNat n.toNat

/-- C10: every option string rejected by the `NAME=VALUE` regex raises a
parser error whose message is exactly `Invalid option spec: None`: the code
interpolates the failed (`None`) match object rather than the input, so the
message is the same for all such inputs and never contains the offending
string. -/
theorem invalid_spec_constant_message (s : List Char)
    (h : matchOptionSpec s = none) :
    translateOption s = .error .invalidOptionSpec ∧
    ParserError.invalidOptionSpec.message =
      "Invalid option spec: None".toList := by
  constructor
  · unfold translateOption
    rw [h]
  · rfl

/-- Witness for C10 at the concrete non-matching option string `foo`. -/
theorem invalid_spec_constant_message_witness :
    translateOption "foo".toList = .error .invalidOptionSpec ∧
    ParserError.invalidOptionSpec.message =
      "Invalid option spec: None".toList :=
  invalid_spec_constant_message "foo".toList (by decide)

/-- C6 as stated is false: `ZMQ_LINGER=5` is an accepted option string (one
`ZMQ_` prefix is stripped, resolving to `LINGER`), but prefixing its name
with `ZMQ_` gives `ZMQ_ZMQ_LINGER=5`, which is rejected as unrecognised:
only a single `ZMQ_` prefix is ever stripped. -/
theorem zmq_strip_counterexample :
    translateOption "ZMQ_LINGER=5".toList = .ok (17, .int 5) ∧
    translateOption "ZMQ_ZMQ_LINGER=5".toList =
      .error (.unrecognisedOption "ZMQ_ZMQ_LINGER".toList) :=
  ⟨by decide, by decide⟩

omit [DecidableEq α] in
theorem takeWhile_append_all {p : α → Bool} :
    ∀ (l : List α) (y : α) (t : List α),
      (∀ c ∈ l, p c = true) → p y = false →
      (l ++ y :: t).takeWhile p = l := by
  intro l
  induction l with
  | nil =>
    intro y t _ hy
    simp [List.takeWhile_cons, hy]
  | cons a l ih =>
    intro y t hall hy
    have ha : p a = true := hall a (by simp)
    simp only [List.cons_append, List.takeWhile_cons, ha, if_true]
    rw [ih y t (fun c hc => hall c (by simp [hc])) hy]

theorem matchOptionSpec_append (name rest : List Char)
    (hname : ∀ c ∈ name, isNameChar c = true) (hne : name ≠ []) :
    matchOptionSpec (name ++ '=' :: rest) =
      (matchValue rest).map (fun v => (name, v)) := by
  have ht : (name ++ '=' :: rest).takeWhile isNameChar = name :=
    takeWhile_append_all name '=' rest hname (by decide)
  rcases name with _ | ⟨a, nm⟩
  · exact absurd rfl hne
  · simp only [matchOptionSpec, ht, List.drop_left]
    simp

theorem strip_zmq_of_no_zmq (name : List Char)
    (h : (['Z', 'M', 'Q', '_'] : List Char).isPrefixOf name = false) :
    strip_zmq name = name := by
  simp [strip_zmq, h]

theorem strip_zmq_cons (name : List Char) :
    strip_zmq ('Z' :: 'M' :: 'Q' :: '_' :: name) = name := by
  have h : (['Z', 'M', 'Q', '_'] : List Char).isPrefixOf
      ('Z' :: 'M' :: 'Q' :: '_' :: name) = true := by
    simp [List.isPrefixOf]
  simp [strip_zmq, h]

theorem translateNamed_congr (a b mv : List Char) (p : Int × OptValue)
    (hstrip : strip_zmq a = strip_zmq b)
    (hok : translateNamed a mv = .ok p) :
    translateNamed b mv = .ok p := by
  simp only [translateNamed] at hok ⊢
  rw [← hstrip]
  rcases hl : zmq_constants.lookup ((strip_zmq a).map Char.toUpper)
    with _ | code
  · rw [hl] at hok
    exact absurd hok (by simp)
  · rw [hl] at hok
    exact hok

/-- C6 corrected: for an option string `NAME=VALUE` accepted by the
translator whose NAME does not itself begin with `ZMQ_`, prepending `ZMQ_`
to the name yields an option string that is also accepted, with the same
numeric option code and the same typed value.  (When NAME itself begins with
`ZMQ_`, prefixing can change the result, since only one prefix is stripped:
see the counterexample.) -/
theorem zmq_strip_invariant (name rest : List Char) (p : Int × OptValue)
    (hname : ∀ c ∈ name, isNameChar c = true)
    (hnz : (['Z', 'M', 'Q', '_'] : List Char).isPrefixOf name = false)
    (hok : translateOption (name ++ '=' :: rest) = .ok p) :
    translateOption (('Z' :: 'M' :: 'Q' :: '_' :: name) ++ '=' :: rest) =
      .ok p := by
  have hne : name ≠ [] := by
    intro h
    subst h
    rw [List.nil_append] at hok
    have hm0 : matchOptionSpec ('=' :: rest) = none := by
      have h61 : isNameChar '=' = false := by decide
      simp [matchOptionSpec, List.takeWhile_cons, h61]
    unfold translateOption at hok
    rw [hm0] at hok
    exact Except.noConfusion hok
  have hname2 : ∀ c ∈ 'Z' :: 'M' :: 'Q' :: '_' :: name,
      isNameChar c = true := by
    intro c hc
    rcases List.mem_cons.1 hc with h1 | hc
    · subst h1; decide
    rcases List.mem_cons.1 hc with h1 | hc
    · subst h1; decide
    rcases List.mem_cons.1 hc with h1 | hc
    · subst h1; decide
    rcases List.mem_cons.1 hc with h1 | hc
    · subst h1; decide
    · exact hname c hc
  have hm1 := matchOptionSpec_append name rest hname hne
  have hm2 := matchOptionSpec_append ('Z' :: 'M' :: 'Q' :: '_' :: name)
    rest hname2 (by simp)
  unfold translateOption at hok ⊢
  rw [hm1] at hok
  rw [hm2]
  rcases hv : matchValue rest with _ | mv
  · rw [hv] at hok
    exact absurd hok (by simp)
  · rw [hv] at hok
    simp only [Option.map_some'] at hok ⊢
    exact translateNamed_congr name ('Z' :: 'M' :: 'Q' :: '_' :: name) mv p
      (by rw [strip_zmq_of_no_zmq name hnz, strip_zmq_cons]) hok

/-- Witness for the corrected C6 at the concrete accepted option string
`LINGER=5` (whose name does not start with `ZMQ_`). -/
theorem zmq_strip_invariant_witness :
    translateOption
      (('Z' :: 'M' :: 'Q' :: '_' :: "LINGER".toList) ++ '=' :: "5".toList) =
      .ok (17, .int 5) :=
  zmq_strip_invariant "LINGER".toList "5".toList (17, .int 5)
    (by decide) (by decide) (by decide)

theorem charOfNat_digit_toNat {d : Nat} (h : d < 10) :
    (Char.ofNat (48 + d)).toNat = 48 + d := by
  interval_cases d <;> decide

theorem decimalNat_digits (n : Nat) :
    ∀ c ∈ decimalNat n, isDigitChar c = true := by
  induction n using Nat.strong_induction_on with
  | _ n ih =>
    rw [decimalNat]
    by_cases h : n < 10
    · rw [dif_pos h]
      intro c hc
      rw [List.mem_singleton] at hc
      subst hc
      unfold isDigitChar
      rw [charOfNat_digit_toNat h]
      simp only [Bool.and_eq_true, decide_eq_true_eq]
      omega
    · rw [dif_neg h]
      intro c hc
      rcases List.mem_append.1 hc with h1 | h2
      · exact ih (n / 10) (Nat.div_lt_self (by omega) (by omega)) c h1
      · rw [List.mem_singleton] at h2
        subst h2
        unfold isDigitChar
        rw [charOfNat_digit_toNat (Nat.mod_lt _ (by omega))]
        simp only [Bool.and_eq_true, decide_eq_true_eq]
        have := Nat.mod_lt n (show 0 < 10 by omega)
        omega

theorem decimalNat_ne_nil (n : Nat) : decimalNat n ≠ [] := by
  rw [decimalNat]
  by_cases h : n < 10
  · rw [dif_pos h]; simp
  · rw [dif_neg h]; simp

theorem foldl_decimalNat (n : Nat) :
    (decimalNat n).foldl (fun a c => a * 10 + digitVal c) 0 = n := by
  induction n using Nat.strong_induction_on with
  | _ n ih =>
    rw [decimalNat]
    by_cases h : n < 10
    · rw [dif_pos h]
      simp only [List.foldl_cons, List.foldl_nil]
      unfold digitVal
      rw [charOfNat_digit_toNat h]
      omega
    · rw [dif_neg h]
      rw [List.foldl_append]
      rw [ih (n / 10) (Nat.div_lt_self (by omega) (by omega))]
      simp only [List.foldl_cons, List.foldl_nil]
      unfold digitVal
      rw [charOfNat_digit_toNat (Nat.mod_lt _ (by omega))]
      omega

theorem parseDigits_decimalNat (n : Nat) :
    parseDigits (decimalNat n) = some n := by
  unfold parseDigits
  rw [if_neg (decimalNat_ne_nil n)]
  rw [if_pos (List.all_eq_true.2 (decimalNat_digits n))]
  rw [foldl_decimalNat]

omit [DecidableEq α] in
theorem dropWhile_all_false {p : α → Bool} (l : List α)
    (h : ∀ c ∈ l, p c = false) : l.dropWhile p = l := by
  cases l with
  | nil => rfl
  | cons a t => simp [List.dropWhile_cons, h a (by simp)]

theorem pystrip_eq_self (s : List Char)
    (h : ∀ c ∈ s, pyWhitespace c = false) : pystrip s = s := by
  unfold pystrip
  rw [dropWhile_all_false s h]
  rw [dropWhile_all_false s.reverse (fun c hc => h c (List.mem_reverse.1 hc))]
  exact List.reverse_reverse s

theorem digit_not_ws {c : Char} (h : isDigitChar c = true) :
    pyWhitespace c = false := by
  unfold isDigitChar at h
  unfold pyWhitespace
  simp only [Bool.and_eq_true, decide_eq_true_eq] at h
  simp only [Bool.or_eq_false_iff, decide_eq_false_iff_not]
  omega

theorem decimalInt_no_ws (n : Int) :
    ∀ c ∈ decimalInt n, pyWhitespace c = false := by
  intro c hc
  unfold decimalInt at hc
  by_cases h : n < 0
  · rw [if_pos h] at hc
    rcases List.mem_cons.1 hc with h1 | h2
    · subst h1; decide
    · exact digit_not_ws (decimalNat_digits _ c h2)
  · rw [if_neg h] at hc
    exact digit_not_ws (decimalNat_digits _ c hc)

theorem pyint_decimalInt (n : Int) : pyint (decimalInt n) = some n := by
  unfold pyint
  rw [pystrip_eq_self _ (decimalInt_no_ws n)]
  unfold decimalInt
  by_cases h : n < 0
  · rw [if_pos h]
    have hred : pyintCore ('-' :: decimalNat n.natAbs) =
        (parseDigits (decimalNat n.natAbs)).map (fun k => -(Int.ofNat k)) :=
      rfl
    rw [hred, parseDigits_decimalNat]
    simp only [Option.map_some', Int.ofNat_eq_natCast]
    congr 1
    omega
  · rw [if_neg h]
    rcases hd : decimalNat n.toNat with _ | ⟨c, ds⟩
    · exact absurd hd (decimalNat_ne_nil _)
    · have hcdig : isDigitChar c = true :=
        decimalNat_digits _ c (by rw [hd]; simp)
      have hc1 : c ≠ '-' := by
        intro he; subst he; exact absurd hcdig (by decide)
      have hc2 : c ≠ '+' := by
        intro he; subst he; exact absurd hcdig (by decide)
      have hred : pyintCore (c :: ds) =
          if c = '-' then (parseDigits ds).map (fun k => -(Int.ofNat k))
          else if c = '+' then (parseDigits ds).map Int.ofNat
          else (parseDigits (c :: ds)).map Int.ofNat := rfl
      rw [hred, if_neg hc1, if_neg hc2, ← hd, parseDigits_decimalNat]
      simp only [Option.map_some', Int.ofNat_eq_natCast]
      congr 1
      omega

/-- C7: for every option assignment whose resolved code is in the
integer-typed classification set, the value is parsed as a signed integer:
a value that is not a valid signed integer makes the translator raise the
"invalid value" parser error, and a valid one yields exactly that integer;
moreover the decimal rendering of any integer round-trips to the same
integer. -/
theorem int_typed_option_values (s matchName matchVal : List Char)
    (code : Int)
    (hm : matchOptionSpec s = some (matchName, matchVal))
    (hl : zmq_constants.lookup ((strip_zmq matchName).map Char.toUpper) =
      some code)
    (hint : (int_sockopts ++ int64_sockopts).contains code = true) :
    (pyint matchVal = none →
      translateOption s =
        .error (.invalidValue (strip_zmq matchName) matchVal)) ∧
    (∀ n : Int, pyint matchVal = some n →
      translateOption s = .ok (code, .int n)) ∧
    (∀ n : Int, pyint (decimalInt n) = some n) := by
  have hred : translateOption s = translateNamed matchName matchVal := by
    unfold translateOption
    rw [hm]
  have hred2 : translateNamed matchName matchVal =
      if (int_sockopts ++ int64_sockopts).contains code = true then
        match pyint matchVal with
        | none =>
          Except.error (.invalidValue (strip_zmq matchName) matchVal)
        | some k => Except.ok (code, .int k)
      else if bytes_sockopts.contains code = true then
        Except.ok (code, .str matchVal)
      else Except.ok (code, .str matchVal) := by
    simp only [translateNamed]
    rw [hl]
  refine ⟨?_, ?_, fun n => pyint_decimalInt n⟩
  · intro hnone
    rw [hred, hred2, if_pos hint, hnone]
  · intro n hn
    rw [hred, hred2, if_pos hint, hn]

/-- Witness for C7 at the concrete option string `LINGER=foo` (invalid
value) and the round-trip at `-42`. -/
theorem int_typed_option_values_witness :
    translateOption "LINGER=foo".toList =
      .error (.invalidValue (strip_zmq "LINGER".toList) "foo".toList) ∧
    pyint (decimalInt (-42)) = some (-42) :=
  ⟨(int_typed_option_values "LINGER=foo".toList "LINGER".toList
      "foo".toList 17 (by decide) (by decide) (by decide)).1 (by decide),
   (int_typed_option_values "LINGER=foo".toList "LINGER".toList
      "foo".toList 17 (by decide) (by decide) (by decide)).2.2 (-42)⟩

/-! ## Argument validation and the configuration phase of `main` -/

/-- The socket types accepted by the argument parser. -/
inductive SockType | PUSH | PULL | PUB | SUB | REQ | REP | PAIR
deriving DecidableEq, Fintype

/-- The read/write mode selected by `-r`/`-w`. -/
inductive Mode | r | w
deriving DecidableEq, Fintype

/-- The behavior selected by `-b`/`-c`. -/
inductive Behavior | bind | connect
deriving DecidableEq, Fintype

/-- The validation chain at the top of `main` (after `parse_args`): each
`parser.error` branch reports a usage error and exits the process with
status 2.  Returns `true` exactly when no branch fires. -/
def validate (sock_type : SockType) (mode : Option Mode)
    (behavior : Option Behavior) : Bool :=
  if sock_type = .SUB ∧ mode = some .w then false
  else if sock_type = .PUB ∧ mode = some .r then false
  else if mode ≠ none ∧ (sock_type = .REQ ∨ sock_type = .REP) then false
  else if mode = none ∧ ¬(sock_type = .REQ ∨ sock_type = .REP) then false
  else if behavior = none then false
  else true

/-- The mutually exclusive `-b`/`-c` argparse group: giving both flags is an
argparse usage error (`none`); otherwise the chosen behavior, if any (the
required-ness of the group is not enforced by argparse here, which is why
`main` re-checks it). -/
def parseBehaviorFlags (b c : Bool) : Option (Option Behavior) :=
  if b && c then none
  else some (if b then some .bind else if c then some .connect else none)

/-- Whether an invocation passes all argument validation: the argparse
mutually-exclusive behavior group, then the checks in `main`. -/
def accepts (sock_type : SockType) (mode : Option Mode) (b c : Bool) : Bool :=
  match parseBehaviorFlags b c with
  | none => false
  | some behavior => validate sock_type mode behavior

/-- C4: argument validation rejects (usage error, non-zero exit) exactly the
configurations in the claimed matrix: SUB with write mode, PUB with read
mode, REQ/REP with any explicit mode flag, any other type with no mode flag,
and the absence of exactly one of bind/connect; every other combination is
accepted. -/
theorem validation_matrix (st : SockType) (mode : Option Mode) (b c : Bool) :
    accepts st mode b c = false ↔
      (st = .SUB ∧ mode = some .w) ∨
      (st = .PUB ∧ mode = some .r) ∨
      ((st = .REQ ∨ st = .REP) ∧ mode ≠ none) ∨
      (¬(st = .REQ ∨ st = .REP) ∧ mode = none) ∨
      ¬(b ≠ c) := by
  revert st mode b c
  decide

/-- The relevant fields of the parsed argparse namespace. -/
structure Args where
  sock_type : SockType
  mode : Option Mode
  behavior : Option Behavior
  sock_opts : List (List Char)
  addresses : List (List Char)
deriving DecidableEq

/-- The observable steps of `main` between argument validation and the
message loop, in program order. -/
inductive MainStep
  | usageError
  | socketCreated (st : SockType)
  | setsockopt (code : Int) (value : OptValue)
  | bindOrConnect (b : Behavior) (address : List Char)
  | enterLoop
deriving DecidableEq

/-- The configuration phase of `main` as the ordered list of its observable
steps: a validation failure exits (usage error) before the socket exists;
otherwise the socket is created first, then the option list is translated by
`get_sockopts` (a `ParserError` being reported through `parser.error`), the
translated options are applied in order, a `SUB` socket with no explicit
`SUBSCRIBE` option is subscribed to everything, the addresses are bound or
connected, and the message loop is entered. -/
def configTrace (a : Args) : List MainStep :=
  if validate a.sock_type a.mode a.behavior = false then [.usageError]
  else
    .socketCreated a.sock_type ::
      (match get_sockopts a.sock_opts with
       | .error _ => [.usageError]
       | .ok opts =>
         (opts.map fun p => MainStep.setsockopt p.1 p.2) ++
           (if a.sock_type = .SUB ∧
               (opts.any fun p => p.1 == SUBSCRIBE) = false then
             [.setsockopt SUBSCRIBE (.str [])]
           else []) ++
           (a.addresses.map fun ad =>
             MainStep.bindOrConnect (a.behavior.getD .bind) ad) ++
           [.enterLoop])

/-- The process exit status decided during the configuration phase: `some 2`
when `parser.error` fires (usage error), `none` when `main` reaches the
message loop. -/
def configExit (a : Args) : Option Nat :=
  if validate a.sock_type a.mode a.behavior = false then some 2
  else
    match get_sockopts a.sock_opts with
    | .error _ => some 2
    | .ok _ => none

/-- C3 as stated is false: on an invocation whose only defect is a malformed
option spec, a usage error is reported and the process exits non-zero, but
the socket object has already been created: `context.socket(...)` runs
before `get_sockopts` is called. -/
theorem socket_before_option_error :
    get_sockopts [['f', 'o', 'o']] = .error .invalidOptionSpec ∧
    configTrace
        ⟨.PUSH, some .w, some .bind, [['f', 'o', 'o']], [['a']]⟩ =
      [.socketCreated .PUSH, .usageError] ∧
    MainStep.socketCreated .PUSH ∈
      configTrace
        ⟨.PUSH, some .w, some .bind, [['f', 'o', 'o']], [['a']]⟩ :=
  ⟨by decide, by decide, by decide⟩

/-- C3 corrected: for every invocation whose flags pass validation but whose
option list contains a malformed spec, an unrecognised name or a wrong-typed
value (so that `get_sockopts` raises), the process reports a usage error and
exits non-zero (status 2) — but only after the socket object is created: the
configuration trace is exactly socket creation followed by the usage error,
with no option applied, no bind/connect and no loop entered. -/
theorem option_error_after_socket (a : Args) (e : ParserError)
    (hv : validate a.sock_type a.mode a.behavior = true)
    (he : get_sockopts a.sock_opts = .error e) :
    configTrace a = [.socketCreated a.sock_type, .usageError] ∧
    configExit a = some 2 := by
  unfold configTrace configExit
  rw [hv, he]
  exact ⟨rfl, rfl⟩

/-- Witness for the corrected C3 at the concrete invocation
`zmqc -w -b PUSH -o foo a`. -/
theorem option_error_after_socket_witness :
    configTrace ⟨.PUSH, some .w, some .bind, [['f', 'o', 'o']], [['a']]⟩ =
      [.socketCreated .PUSH, .usageError] ∧
    configExit ⟨.PUSH, some .w, some .bind, [['f', 'o', 'o']], [['a']]⟩ =
      some 2 :=
  option_error_after_socket _ .invalidOptionSpec (by decide) (by decide)

/-- The selector extracting the applied socket options (`setsockopt` calls)
from a configuration trace. -/
def selSetsockopt : MainStep → Option (Int × OptValue)
  | .setsockopt code v => some (code, v)
  | _ => none

/-- The socket options applied during the configuration phase, in order. -/
def appliedOptions (a : Args) : List (Int × OptValue) :=
  (configTrace a).filterMap selSetsockopt

theorem filterMap_sel_opts (opts : List (Int × OptValue)) :
    List.filterMap (selSetsockopt ∘ fun p => MainStep.setsockopt p.1 p.2)
      opts = opts := by
  induction opts with
  | nil => rfl
  | cons p ps ih => simp [List.filterMap_cons, selSetsockopt, ih]

theorem filterMap_sel_addrs (b : Behavior) (ads : List (List Char)) :
    List.filterMap (selSetsockopt ∘ fun ad => MainStep.bindOrConnect b ad)
      ads = [] := by
  induction ads with
  | nil => rfl
  | cons adr ads ih => simp [List.filterMap_cons, selSetsockopt, ih]

/-- C5: on an invocation with socket type SUB whose translated option list
has no assignment with the SUBSCRIBE code, exactly one additional
subscribe-to-everything option `(SUBSCRIBE, "")` is applied to the socket
after the explicit options; if at least one explicit SUBSCRIBE assignment is
present, no implicit subscription is added. -/
theorem sub_implicit_subscribe (a : Args) (opts : List (Int × OptValue))
    (hv : validate a.sock_type a.mode a.behavior = true)
    (hsub : a.sock_type = .SUB)
    (hok : get_sockopts a.sock_opts = .ok opts) :
    ((opts.any fun p => p.1 == SUBSCRIBE) = false →
      appliedOptions a = opts ++ [(SUBSCRIBE, .str [])]) ∧
    ((opts.any fun p => p.1 == SUBSCRIBE) = true →
      appliedOptions a = opts) := by
  have hv2 : validate .SUB a.mode a.behavior = true := by
    rw [← hsub]; exact hv
  constructor <;> intro hany <;>
    simp [appliedOptions, configTrace, hv2, hok, hsub, hany,
      List.filterMap_cons, List.filterMap_append, selSetsockopt,
      filterMap_sel_opts, filterMap_sel_addrs]

/-- Witness for C5 at the concrete invocation `zmqc -r -c SUB a` with no
explicit options: the subscribe-to-everything option is applied. -/
theorem sub_implicit_subscribe_witness :
    appliedOptions ⟨.SUB, some .r, some .connect, [], [['a']]⟩ =
      [] ++ [(SUBSCRIBE, .str [])] :=
  (sub_implicit_subscribe ⟨.SUB, some .r, some .connect, [], [['a']]⟩ []
    (by decide) (by decide) (by decide)).1 (by decide)

/-! ## The message loops: events, exceptions and termination -/

/-- The two framing primitives invoked by the loops. -/
inductive Prim | rd | wr
deriving DecidableEq

/-- The event occurring at one invocation of a primitive: normal completion,
a `KeyboardInterrupt`, end of the input stream (`EOFError` from
`read_until_delimiter`), an `IOError` with `errno == EPIPE` from a stream,
any other `IOError` from a stream, or an error raised by the socket call
(`zmq.ZMQError`, which is not an `IOError`). -/
inductive Event | ok | interrupt | eof | epipe | ioerr | sockerr
deriving DecidableEq

/-- What escapes a primitive: the `StopIteration` sentinel (caught by
`main`, clean exit) or any other exception (uncaught, so the interpreter
prints a traceback and the process exits non-zero). -/
inductive Exc | stopIteration | uncaught
deriving DecidableEq

/-- Exception behaviour of `read(sock, delimiter, output)`: it catches
`KeyboardInterrupt` and `IOError` with `errno == EPIPE`, turning them into
`StopIteration`; any other `IOError` is re-raised, and every other exception
propagates. -/
def readPrimStep : Event → Except Exc Unit
  | .ok => .ok ()
  | .interrupt => .error .stopIteration
  | .epipe => .error .stopIteration
  | .eof => .error .uncaught
  | .ioerr => .error .uncaught
  | .sockerr => .error .uncaught

/-- Exception behaviour of `write(sock, delimiter, input)`: it catches
`KeyboardInterrupt` and `EOFError`, turning them into `StopIteration`;
`IOError`s (including `EPIPE`) and socket errors propagate. -/
def writePrimStep : Event → Except Exc Unit
  | .ok => .ok ()
  | .interrupt => .error .stopIteration
  | .eof => .error .stopIteration
  | .epipe => .error .uncaught
  | .ioerr => .error .uncaught
  | .sockerr => .error .uncaught

/-- Dispatch to the primitive's exception behaviour. -/
def primStep : Prim → Event → Except Exc Unit
  | .rd, e => readPrimStep e
  | .wr, e => writePrimStep e

/-- Body of `req_loop`: `write(...)` then `read(...)`, once per iteration. -/
def req_loop_body : List Prim := [.wr, .rd]

/-- Body of `rep_loop`: `read(...)` then `write(...)`, once per iteration. -/
def rep_loop_body : List Prim := [.rd, .wr]

/-- Body of `read_loop`: one `read(...)` per iteration. -/
def read_loop_body : List Prim := [.rd]

/-- Body of `write_loop`: one `write(...)` per iteration. -/
def write_loop_body : List Prim := [.wr]

/-- The loop selected by the dispatch in `main`: `req_loop` for REQ,
`rep_loop` for REP, otherwise `read_loop` or `write_loop` according to the
mode (no loop runs when none matches, which validation rules out). -/
def loopBody (st : SockType) (mode : Option Mode) : List Prim :=
  if st = .REQ then req_loop_body
  else if st = .REP then rep_loop_body
  else if mode = some .r then read_loop_body
  else if mode = some .w then write_loop_body
  else []

/-- Execute one iteration of the loop body: the primitives in order, each
consuming the event at the running index of the schedule.  Returns the next
event index, or the exception escaping the iteration. -/
def runIter (ps : List Prim) (evs : Nat → Event) (i : Nat) : Except Exc Nat :=
  match ps with
  | [] => .ok i
  | p :: rest =>
    match primStep p (evs i) with
    | .ok _ => runIter rest evs (i + 1)
    | .error e => .error e

/-- The possible process exit statuses of the message-exchange phase. -/
inductive Outcome | clean | fail
deriving DecidableEq

/-- Run the loop for `k` iterations (`itertools.repeat(None, k)` under
`-n k`), wrapped in `main`'s `except StopIteration: return`: a
`StopIteration` escaping a primitive ends the process cleanly (exit 0); any
other exception propagates (non-zero exit); exhausting the iterator is also
a clean exit.  Returns the outcome and the number of completed iterations. -/
def runLoop (k : Nat) (ps : List Prim) (evs : Nat → Event) (i : Nat) :
    Outcome × Nat :=
  match k with
  | 0 => (.clean, 0)
  | k + 1 =>
    match runIter ps evs i with
    | .ok i2 =>
      let r := runLoop k ps evs i2
      (r.1, r.2 + 1)
    | .error .stopIteration => (.clean, 0)
    | .error .uncaught => (.fail, 0)

/-- The primitives attempted within one iteration (a raising primitive ends
the iteration). -/
def iterActions (ps : List Prim) (evs : Nat → Event) (i : Nat) : List Prim :=
  match ps with
  | [] => []
  | p :: rest =>
    match primStep p (evs i) with
    | .ok _ => p :: iterActions rest evs (i + 1)
    | .error _ => [p]

/-- The primitives attempted, in order, while running `k` iterations. -/
def runActions (k : Nat) (ps : List Prim) (evs : Nat → Event) (i : Nat) :
    List Prim :=
  match k with
  | 0 => []
  | k + 1 =>
    match runIter ps evs i with
    | .ok i2 => iterActions ps evs i ++ runActions k ps evs i2
    | .error _ => iterActions ps evs i

/-- The exception produced by a primitive for a non-`ok` event. -/
def stepExc (p : Prim) (e : Event) : Exc :=
  match primStep p e with
  | .error x => x
  | .ok _ => .uncaught

/-- The claim's classification of an abnormal event as a clean termination
condition: an interrupt signal, end of the input stream (at the write
primitive, which is the one reading standard input), or a broken pipe on
standard output (at the read primitive, which is the one writing it). -/
def cleanEvent (p : Prim) (e : Event) : Bool :=
  e = .interrupt || (e = .eof && p = .wr) || (e = .epipe && p = .rd)

theorem primStep_error (p : Prim) (e : Event) (h : e ≠ .ok) :
    primStep p e = .error (stepExc p e) := by
  revert h
  cases p <;> cases e <;> decide

theorem stepExc_stop_iff_cleanEvent (p : Prim) (e : Event) (h : e ≠ .ok) :
    (stepExc p e = .stopIteration ↔ cleanEvent p e = true) := by
  revert h
  cases p <;> cases e <;> decide

theorem primStep_ok (p : Prim) : primStep p .ok = .ok () := by
  cases p <;> rfl

theorem runIter_all_ok (evs : Nat → Event) :
    ∀ (ps : List Prim) (i : Nat),
      (∀ j, j < ps.length → evs (i + j) = .ok) →
      runIter ps evs i = .ok (i + ps.length) := by
  intro ps
  induction ps with
  | nil => intro i _; simp [runIter]
  | cons p rest ih =>
    intro i h
    have h0 : evs i = .ok := by
      have := h 0 (by simp)
      simpa using this
    have hp : primStep p (evs i) = .ok () := by rw [h0, primStep_ok]
    unfold runIter
    rw [hp]
    show runIter rest evs (i + 1) = .ok (i + (rest.length + 1))
    rw [ih (i + 1) (fun j hj => by
      rw [show i + 1 + j = i + (j + 1) by omega]
      exact h (j + 1) (by simpa using Nat.succ_lt_succ hj))]
    congr 1
    omega

theorem runIter_first_bad (evs : Nat → Event) :
    ∀ (ps : List Prim) (i j0 : Nat), j0 < ps.length →
      (∀ j, j < j0 → evs (i + j) = .ok) → evs (i + j0) ≠ .ok →
      runIter ps evs i = .error (stepExc (ps.getD j0 .rd) (evs (i + j0))) := by
  intro ps
  induction ps with
  | nil => intro i j0 h; simp at h
  | cons p rest ih =>
    intro i j0 hlt hpre hbad
    cases j0 with
    | zero =>
      have hb : evs i ≠ .ok := by simpa using hbad
      have hp : primStep p (evs i) = .error (stepExc p (evs i)) :=
        primStep_error p _ hb
      unfold runIter
      rw [hp]
      simp
    | succ j0 =>
      have h0 : evs i = .ok := by
        have := hpre 0 (by omega)
        simpa using this
      have hp : primStep p (evs i) = .ok () := by rw [h0, primStep_ok]
      unfold runIter
      rw [hp]
      show runIter rest evs (i + 1) = _
      have hrec := ih (i + 1) j0 (by simpa using hlt)
        (fun j hj => by
          rw [show i + 1 + j = i + (j + 1) by omega]
          exact hpre (j + 1) (by omega))
        (by
          rw [show i + 1 + j0 = i + (j0 + 1) by omega]
          exact hbad)
      rw [hrec, show i + 1 + j0 = i + (j0 + 1) by omega]
      rw [List.getD_cons_succ]

theorem runLoop_all_ok (ps : List Prim) (evs : Nat → Event) :
    ∀ (k i : Nat), (∀ j, j < k * ps.length → evs (i + j) = .ok) →
      runLoop k ps evs i = (.clean, k) := by
  intro k
  induction k with
  | zero => intro i _; rfl
  | succ k ih =>
    intro i h
    rw [Nat.succ_mul] at h
    have hiter : runIter ps evs i = .ok (i + ps.length) :=
      runIter_all_ok evs ps i (fun j hj => h j (by omega))
    unfold runLoop
    rw [hiter]
    show ((runLoop k ps evs (i + ps.length)).1,
      (runLoop k ps evs (i + ps.length)).2 + 1) = (.clean, k + 1)
    rw [ih (i + ps.length) (fun j hj => by
      rw [show i + ps.length + j = i + (ps.length + j) by omega]
      exact h (ps.length + j) (by omega))]

theorem runLoop_clean_iff (ps : List Prim) (evs : Nat → Event) :
    ∀ (k i : Nat),
      ((runLoop k ps evs i).1 = .clean ↔
        (∀ j, j < k * ps.length → evs (i + j) = .ok) ∨
        ∃ j, j < k * ps.length ∧ (∀ j2, j2 < j → evs (i + j2) = .ok) ∧
          evs (i + j) ≠ .ok ∧
          cleanEvent (ps.getD (j % ps.length) .rd) (evs (i + j)) = true) := by
  intro k
  induction k with
  | zero =>
    intro i
    simp [runLoop]
  | succ k ih =>
    intro i
    rw [Nat.succ_mul]
    by_cases hbad : ∃ j0, j0 < ps.length ∧ evs (i + j0) ≠ .ok
    · obtain ⟨w, hw1, hw2⟩ := hbad
      have hex : ∃ j0, evs (i + j0) ≠ Event.ok := ⟨w, hw2⟩
      set j0 := Nat.find hex with hj0def
      have hj0bad : evs (i + j0) ≠ .ok := Nat.find_spec hex
      have hj0min : ∀ j, j < j0 → evs (i + j) = .ok := fun j hj =>
        not_not.mp (Nat.find_min hex hj)
      have hj0lt : j0 < ps.length :=
        lt_of_le_of_lt (Nat.find_min' hex hw2) hw1
      have hiter := runIter_first_bad evs ps i j0 hj0lt hj0min hj0bad
      unfold runLoop
      rw [hiter]
      cases hexc : stepExc (ps.getD j0 .rd) (evs (i + j0)) with
      | stopIteration =>
        constructor
        · intro _
          right
          refine ⟨j0, by omega, hj0min, hj0bad, ?_⟩
          rw [Nat.mod_eq_of_lt hj0lt]
          exact (stepExc_stop_iff_cleanEvent _ _ hj0bad).1 hexc
        · intro _
          rfl
      | uncaught =>
        constructor
        · intro hcl
          exact Outcome.noConfusion hcl
        · rintro (hfor | ⟨j, hj, hpre, hne, hcl⟩)
          · exact absurd (hfor j0 (by omega)) hj0bad
          · have hjj0 : j = j0 := by
              rcases Nat.lt_trichotomy j j0 with h1 | h2 | h3
              · exact absurd (hj0min j h1) hne
              · exact h2
              · exact absurd (hpre j0 h3) hj0bad
            subst hjj0
            rw [Nat.mod_eq_of_lt hj0lt] at hcl
            have hstop := (stepExc_stop_iff_cleanEvent
              (ps.getD j0 .rd) (evs (i + j0)) hne).2 hcl
            rw [hexc] at hstop
            exact Exc.noConfusion hstop
    · push_neg at hbad
      have hiter := runIter_all_ok evs ps i hbad
      unfold runLoop
      rw [hiter]
      show (runLoop k ps evs (i + ps.length)).1 = Outcome.clean ↔ _
      rw [ih (i + ps.length)]
      constructor
      · rintro (hfor | ⟨j, hj, hpre, hne, hcl⟩)
        · left
          intro j hj
          by_cases hj2 : j < ps.length
          · exact hbad j hj2
          · have hsub : j - ps.length < k * ps.length := by omega
            have := hfor (j - ps.length) hsub
            rw [show i + ps.length + (j - ps.length) = i + j by omega] at this
            exact this
        · right
          refine ⟨ps.length + j, by omega, ?_, ?_, ?_⟩
          · intro j2 hj2
            by_cases hx : j2 < ps.length
            · exact hbad j2 hx
            · have h2 : j2 - ps.length < j := by omega
              have := hpre (j2 - ps.length) h2
              rw [show i + ps.length + (j2 - ps.length) = i + j2 by omega]
                at this
              exact this
          · rw [show i + (ps.length + j) = i + ps.length + j by omega]
            exact hne
          · rw [show i + (ps.length + j) = i + ps.length + j by omega,
              Nat.add_mod_left]
            exact hcl
      · rintro (hfor | ⟨j, hj, hpre, hne, hcl⟩)
        · left
          intro j hj
          rw [show i + ps.length + j = i + (ps.length + j) by omega]
          exact hfor (ps.length + j) (by omega)
        · have hjlen : ps.length ≤ j := by
            by_contra hx
            push_neg at hx
            exact hne (hbad j hx)
          right
          refine ⟨j - ps.length, by omega, ?_, ?_, ?_⟩
          · intro j2 hj2
            rw [show i + ps.length + j2 = i + (ps.length + j2) by omega]
            exact hpre (ps.length + j2) (by omega)
          · rw [show i + ps.length + (j - ps.length) = i + j by omega]
            exact hne
          · rw [show i + ps.length + (j - ps.length) = i + j by omega]
            have hmod : (j - ps.length) % ps.length = j % ps.length := by
              conv_rhs => rw [show j = ps.length + (j - ps.length) by omega]
              rw [Nat.add_mod_left]
            rw [hmod]
            exact hcl

/-- C2: for every run reaching the message-exchange phase (a validated
configuration) under `-n k`, the process exits cleanly (status 0) exactly
when: the iteration count is exhausted (after exactly `k` iterations of the
selected loop, regardless of events scheduled beyond them), or the first
abnormal event is an interrupt, end of the input stream at the write
primitive, or a broken output pipe at the read primitive; any other I/O or
socket error propagates and the process exits non-zero. -/
theorem loop_termination (st : SockType) (mode : Option Mode)
    (behavior : Option Behavior) (k : Nat) (evs : Nat → Event)
    (hv : validate st mode behavior = true) :
    ((∀ j, j < k * (loopBody st mode).length → evs j = .ok) →
      runLoop k (loopBody st mode) evs 0 = (.clean, k)) ∧
    ((runLoop k (loopBody st mode) evs 0).1 = .clean ↔
      (∀ j, j < k * (loopBody st mode).length → evs j = .ok) ∨
      ∃ j, j < k * (loopBody st mode).length ∧
        (∀ j2, j2 < j → evs j2 = .ok) ∧ evs j ≠ .ok ∧
        cleanEvent ((loopBody st mode).getD (j % (loopBody st mode).length)
          .rd) (evs j) = true) := by
  constructor
  · intro h
    exact runLoop_all_ok (loopBody st mode) evs k 0 (fun j hj => by
      rw [Nat.zero_add]
      exact h j hj)
  · have hiff := runLoop_clean_iff (loopBody st mode) evs k 0
    simp only [Nat.zero_add] at hiff
    exact hiff

/-- Witness for C2: a PULL/read run with `-n 2` and an all-ok schedule
completes exactly 2 iterations and exits cleanly. -/
theorem loop_termination_witness :
    runLoop 2 (loopBody .PULL (some .r)) (fun _ => .ok) 0 = (.clean, 2) :=
  (loop_termination .PULL (some .r) (some .connect) 2 (fun _ => .ok)
    (by decide)).1 (fun _ _ => rfl)

theorem iterActions_all_ok (evs : Nat → Event) :
    ∀ (ps : List Prim) (i : Nat),
      (∀ j, j < ps.length → evs (i + j) = .ok) →
      iterActions ps evs i = ps := by
  intro ps
  induction ps with
  | nil => intro i _; rfl
  | cons p rest ih =>
    intro i h
    have h0 : evs i = .ok := by
      have := h 0 (by simp)
      simpa using this
    have hp : primStep p (evs i) = .ok () := by rw [h0, primStep_ok]
    unfold iterActions
    rw [hp]
    show p :: iterActions rest evs (i + 1) = p :: rest
    rw [ih (i + 1) (fun j hj => by
      rw [show i + 1 + j = i + (j + 1) by omega]
      exact h (j + 1) (by simpa using Nat.succ_lt_succ hj))]

theorem runActions_all_ok (ps : List Prim) (evs : Nat → Event)
    (hok : ∀ j, evs j = .ok) :
    ∀ (k i : Nat), runActions k ps evs i = (List.replicate k ps).flatten := by
  intro k
  induction k with
  | zero => intro i; rfl
  | succ k ih =>
    intro i
    have hiter : runIter ps evs i = .ok (i + ps.length) :=
      runIter_all_ok evs ps i (fun j _ => hok (i + j))
    unfold runActions
    rw [hiter]
    show iterActions ps evs i ++ runActions k ps evs (i + ps.length) = _
    rw [iterActions_all_ok evs ps i (fun j _ => hok (i + j)),
      ih (i + ps.length), List.replicate_succ, List.flatten_cons]

/-- C8: under normal operation, each iteration of `req_loop` performs
exactly one write-one followed by exactly one read-one, and each iteration
of `rep_loop` exactly one read-one followed by exactly one write-one: the
action trace of `k` iterations is exactly `k` copies of the respective pair,
so no iteration performs the pair in any other order or count. -/
theorem req_rep_alternation (k : Nat) (evs : Nat → Event)
    (hok : ∀ j, evs j = .ok) :
    runActions k req_loop_body evs 0 =
      (List.replicate k [Prim.wr, Prim.rd]).flatten ∧
    runActions k rep_loop_body evs 0 =
      (List.replicate k [Prim.rd, Prim.wr]).flatten :=
  ⟨runActions_all_ok req_loop_body evs hok k 0,
   runActions_all_ok rep_loop_body evs hok k 0⟩

/-- Witness for C8 at `k = 3` with an all-ok schedule. -/
theorem req_rep_alternation_witness :
    runActions 3 req_loop_body (fun _ => .ok) 0 =
      (List.replicate 3 [Prim.wr, Prim.rd]).flatten ∧
    runActions 3 rep_loop_body (fun _ => .ok) 0 =
      (List.replicate 3 [Prim.rd, Prim.wr]).flatten :=
  req_rep_alternation 3 (fun _ => .ok) (fun _ => rfl)
